import Mathlib

set_option autoImplicit false

namespace Argunauts

/-- Values that can occur as fields of the JSON records the pipeline
manipulates (Python objects after `json.load`).  Python `None` is `vnone`.
JSON arrays (e.g. `tool_calls` fields) are encoded first-order as cons
cells `varrcons`/`varrnil`.  The verified operations only ever compare such
values for equality, test whether they are strings, or test whether they
are `None`, so this universe is adequate. -/
inductive PyVal where
  | vnone
  | vbool (b : Bool)
  | vint (n : Int)
  | vstr (s : String)
  | varrnil
  | varrcons (head tail : PyVal)
deriving DecidableEq

/-- A Python dict with string keys: an insertion-ordered association list
with (by invariant) unique keys.  All dict operations below follow Python
dict semantics: lookup finds the unique binding, assignment to an existing
key updates in place, assignment to a fresh key appends at the end. -/
abbrev Dict := List (String × PyVal)

/-- `d.get(k)` when the caller treats a missing key as `None`
(`rec.get("example_id")` and friends): first binding of `k`, else `vnone`. -/
def dget (d : Dict) (k : String) : PyVal :=
  match d with
  | [] => .vnone
  | (k', v) :: rest => if k' = k then v else dget rest k

/-- `k in d` (Python key membership). -/
def dmem (d : Dict) (k : String) : Bool :=
  match d with
  | [] => false
  | (k', _) :: rest => k' = k || dmem rest k

/-- `d[k] = v` (Python dict assignment): update the existing binding in
place, else append a new binding at the end. -/
def dset (d : Dict) (k : String) (v : PyVal) : Dict :=
  match d with
  | [] => [(k, v)]
  | (k', v') :: rest => if k' = k then (k', v) :: rest else (k', v') :: dset rest k v

/-- `d.setdefault(k, v)` (as used by the assigner): insert `k ↦ v` only
when `k` is not yet a key. -/
def dsetdefault (d : Dict) (k : String) (v : PyVal) : Dict :=
  if dmem d k then d else d ++ [(k, v)]

/-- `set(d.keys())`. -/
def dkeys (d : Dict) : Finset String :=
  (d.map Prod.fst).toFinset

@[simp] theorem dget_nil (k : String) : dget [] k = .vnone := rfl

@[simp] theorem dget_cons (k k' : String) (v : PyVal) (rest : Dict) :
    dget ((k', v) :: rest) k = if k' = k then v else dget rest k := rfl

@[simp] theorem dmem_nil (k : String) : dmem [] k = false := rfl

@[simp] theorem dmem_cons (k k' : String) (v : PyVal) (rest : Dict) :
    dmem ((k', v) :: rest) k = (decide (k' = k) || dmem rest k) := rfl

theorem dget_dset_ne (d : Dict) (k k' : String) (v : PyVal) (h : k ≠ k') :
    dget (dset d k v) k' = dget d k' := by
  induction d with
  | nil => simp [dset, dget, h]
  | cons hd tl ih =>
    obtain ⟨k0, v0⟩ := hd
    by_cases hk : k0 = k
    · subst hk
      simp [dset, dget, h]
    · simp [dset, hk, dget, ih]

theorem dmem_of_dget_ne_vnone (d : Dict) (k : String) (h : dget d k ≠ .vnone) :
    dmem d k = true := by
  induction d with
  | nil => simp [dget] at h
  | cons hd tl ih =>
    obtain ⟨k0, v0⟩ := hd
    by_cases hk : k0 = k
    · simp [dmem, hk]
    · simp only [dget_cons, if_neg hk] at h
      simp [dmem, hk, ih h]

/-- A message of a conversation: a Python dict (`role`, `content`, and
optionally `name`, `tool_calls`, `tools`, ...).  The validator's
"message is not an object" branch is unreachable in this typed model. -/
structure Msg where
  fields : Dict
deriving DecidableEq

/-- A dataset record: its non-conversation fields (`example_id`, and after
assignment `mode` / `model`) as a Python dict, plus its `conversations`
list.  A record whose JSON object lacks the `conversations` key is modelled
with `conversations = []`, and the validator's "'conversations' is not a
list" branch is unreachable in this typed model. -/
structure Record where
  fields : Dict
  conversations : List Msg
deriving DecidableEq

/-- `rec.get("example_id")` — Python `None` (absent key or JSON null)
becomes `vnone`. -/
def exampleId (r : Record) : PyVal :=
  dget r.fields "example_id"

/-- The set of (non-null) example identifiers occurring in a record list.
Records without an `example_id` (or with a null one) contribute nothing. -/
def idSet (records : List Record) : Finset PyVal :=
  ((records.map exampleId).filter (fun v => v ≠ .vnone)).toFinset

/-- `compute_pending_ids` from orchestrate_argunauts.py: `orig_ids` is the
list of `rec.get("example_id")` over the original records, `canon_ids` the
set of `example_id` values of canonical records that have the key, and the
result keeps the original ids that are not `None` and not in `canon_ids`
(in original order, duplicates preserved). -/
def compute_pending_ids (original_records canonical_records : List Record) : List PyVal :=
  let orig_ids := original_records.map exampleId
  let canon_ids : Finset PyVal :=
    (((canonical_records.filter (fun r => dmem r.fields "example_id")).map
      exampleId)).toFinset
  orig_ids.filter (fun exId => exId ≠ .vnone ∧ exId ∉ canon_ids)

/-- `build_repair_records` from orchestrate_argunauts.py: the original
records whose `example_id` lies in the pending batch. -/
def build_repair_records (original_records : List Record) (pending_ids : List PyVal) :
    List Record :=
  original_records.filter (fun r => exampleId r ∈ pending_ids)

/-- An insertion-ordered Python dict keyed by example identifier
(`by_id` in orchestrate_argunauts.py, the loaded record dicts in
validate_structures.py). -/
abbrev IdDict := List (PyVal × Record)

/-- Python dict assignment on an identifier-keyed dict: update the existing
binding in place, else append at the end. -/
def idUpsert (d : IdDict) (k : PyVal) (r : Record) : IdDict :=
  match d with
  | [] => [(k, r)]
  | (k', r') :: rest => if k' = k then (k', r) :: rest else (k', r') :: idUpsert rest k r

/-- Python dict lookup on an identifier-keyed dict (`raw_index.get(eid)`,
`transf_records[example_id]`). -/
def idLookup (d : IdDict) (k : PyVal) : Option Record :=
  match d with
  | [] => none
  | (k', r) :: rest => if k' = k then some r else idLookup rest k

/-- `merge_clean_repair_into_canonical` from orchestrate_argunauts.py:
build `by_id` from the canonical records that have the `example_id` key
(a dict comprehension: later duplicates overwrite in place), upsert every
repair record whose `rec.get("example_id")` is not `None`, and return the
dict's values in key-insertion order. -/
def merge_clean_repair_into_canonical
    (canonical_records repair_clean_records : List Record) : List Record :=
  let by_id : IdDict :=
    (canonical_records.filter (fun r => dmem r.fields "example_id")).foldl
      (fun acc r => idUpsert acc (exampleId r) r) []
  let final : IdDict :=
    repair_clean_records.foldl
      (fun acc r => if exampleId r = .vnone then acc else idUpsert acc (exampleId r) r)
      by_id
  final.map Prod.snd

theorem compute_pending_ids_toFinset (original canonical : List Record) :
    (compute_pending_ids original canonical).toFinset = idSet original \ idSet canonical := by
  ext v
  simp only [compute_pending_ids, idSet, List.mem_toFinset, List.mem_filter, List.mem_map,
    Finset.mem_sdiff, decide_eq_true_eq]
  constructor
  · rintro ⟨⟨r, hr, rfl⟩, hne, hnc⟩
    refine ⟨⟨⟨r, hr, rfl⟩, by simpa using hne⟩, ?_⟩
    rintro ⟨⟨r', hr', he'⟩, -⟩
    have h2 : dmem r'.fields "example_id" = true :=
      dmem_of_dget_ne_vnone r'.fields "example_id"
        (show exampleId r' ≠ .vnone by rw [he']; exact hne)
    exact hnc ⟨r', ⟨hr', h2⟩, he'⟩
  · rintro ⟨⟨⟨r, hr, rfl⟩, hne⟩, hnc⟩
    have hne' : exampleId r ≠ .vnone := by simpa using hne
    refine ⟨⟨r, hr, rfl⟩, hne', ?_⟩
    rintro ⟨r', ⟨hr', -⟩, he'⟩
    exact hnc ⟨⟨r', hr', he'⟩, hne'⟩

/-- C1: for every original record list and every canonical record list, the
pending set computed by the repair loop equals the set of example_ids of
records in the original list minus the set of example_ids of records in the
canonical list. -/
theorem compute_pending_ids_spec (original canonical : List Record) :
    (compute_pending_ids original canonical).toFinset = idSet original \ idSet canonical :=
  compute_pending_ids_toFinset original canonical

/-- When the canonical records already cover every identifier of the
original records, the repair loop's pending list is empty. -/
theorem compute_pending_ids_eq_nil (original canonical : List Record)
    (h : idSet original ⊆ idSet canonical) :
    compute_pending_ids original canonical = [] := by
  have hf : (compute_pending_ids original canonical).toFinset = ∅ := by
    rw [compute_pending_ids_toFinset, Finset.sdiff_eq_empty_iff_subset]
    exact h
  apply List.eq_nil_iff_forall_not_mem.2
  intro v hv
  have hv2 : v ∈ (compute_pending_ids original canonical).toFinset := List.mem_toFinset.2 hv
  rw [hf] at hv2
  exact absurd hv2 (Finset.not_mem_empty v)

/-- Every entry of an identifier-keyed dict is keyed by its record's own
example identifier (true of every dict the orchestrator builds). -/
def Keyed (d : IdDict) : Prop := ∀ p ∈ d, exampleId p.2 = p.1

theorem idUpsert_fst_toFinset (d : IdDict) (k : PyVal) (r : Record) :
    ((idUpsert d k r).map Prod.fst).toFinset = insert k (d.map Prod.fst).toFinset := by
  induction d with
  | nil => simp [idUpsert]
  | cons hd tl ih =>
    obtain ⟨k0, r0⟩ := hd
    by_cases hk : k0 = k
    · subst hk; simp [idUpsert]
    · simp [idUpsert, hk, ih, Finset.Insert.comm]

theorem mem_idUpsert (d : IdDict) (k : PyVal) (r : Record) (p : PyVal × Record)
    (hp : p ∈ idUpsert d k r) : p ∈ d ∨ p = (k, r) := by
  induction d with
  | nil => simpa [idUpsert] using hp
  | cons hd tl ih =>
    obtain ⟨k0, r0⟩ := hd
    by_cases hk : k0 = k
    · subst hk
      rcases (by simpa [idUpsert] using hp : p = (k0, r) ∨ p ∈ tl) with h | h
      · exact Or.inr h
      · exact Or.inl (List.mem_cons_of_mem _ h)
    · rcases (by simpa [idUpsert, hk] using hp : p = (k0, r0) ∨ p ∈ idUpsert tl k r) with h | h
      · exact Or.inl (by simp [h])
      · rcases ih h with h' | h'
        · exact Or.inl (List.mem_cons_of_mem _ h')
        · exact Or.inr h'

theorem keyed_idUpsert (d : IdDict) (k : PyVal) (r : Record)
    (hd : Keyed d) (hr : exampleId r = k) : Keyed (idUpsert d k r) := by
  intro p hp
  rcases mem_idUpsert d k r p hp with h | h
  · exact hd p h
  · subst h; exact hr

/-- The `by_id` dict comprehension over the canonical records, as a fold. -/
def canonFoldStep (acc : IdDict) (r : Record) : IdDict := idUpsert acc (exampleId r) r

/-- The repair-record upsert loop over `by_id`, as a fold. -/
def repairFoldStep (acc : IdDict) (r : Record) : IdDict :=
  if exampleId r = .vnone then acc else idUpsert acc (exampleId r) r

theorem canonFold_spec (l : List Record) :
    ∀ acc : IdDict, Keyed acc →
      Keyed (l.foldl canonFoldStep acc) ∧
      ((l.foldl canonFoldStep acc).map Prod.fst).toFinset
        = (acc.map Prod.fst).toFinset ∪ (l.map exampleId).toFinset := by
  induction l with
  | nil => intro acc h; simp [h]
  | cons hd tl ih =>
    intro acc h
    have h1 : Keyed (canonFoldStep acc hd) := keyed_idUpsert acc (exampleId hd) hd h rfl
    obtain ⟨hk, he⟩ := ih (canonFoldStep acc hd) h1
    refine ⟨by simpa using hk, ?_⟩
    rw [List.foldl_cons, he, canonFoldStep, idUpsert_fst_toFinset]
    ext v
    simp only [Finset.mem_union, Finset.mem_insert, List.mem_toFinset, List.map_cons,
      List.mem_cons]
    tauto

theorem repairFold_spec (l : List Record) :
    ∀ acc : IdDict, Keyed acc →
      Keyed (l.foldl repairFoldStep acc) ∧
      ((l.foldl repairFoldStep acc).map Prod.fst).toFinset
        = (acc.map Prod.fst).toFinset
            ∪ ((l.map exampleId).filter (fun v => v ≠ .vnone)).toFinset := by
  induction l with
  | nil => intro acc h; simp [h]
  | cons hd tl ih =>
    intro acc h
    by_cases hv : exampleId hd = .vnone
    · have h1 : repairFoldStep acc hd = acc := by simp [repairFoldStep, hv]
      obtain ⟨hk, he⟩ := ih acc h
      refine ⟨by simpa [List.foldl_cons, h1] using hk, ?_⟩
      rw [List.foldl_cons, h1, he]
      simp [hv]
    · have h1 : Keyed (repairFoldStep acc hd) := by
        simpa [repairFoldStep, hv] using keyed_idUpsert acc (exampleId hd) hd h rfl
      obtain ⟨hk, he⟩ := ih (repairFoldStep acc hd) h1
      refine ⟨by simpa using hk, ?_⟩
      rw [List.foldl_cons, he, repairFoldStep, if_neg hv, idUpsert_fst_toFinset]
      ext v
      simp only [Finset.mem_union, Finset.mem_insert, List.mem_toFinset, List.map_cons,
        List.filter_cons, hv, decide_not]
      by_cases hvd : v = exampleId hd <;> simp [hvd, hv]

theorem map_exampleId_map_snd (d : IdDict) (h : Keyed d) :
    (d.map Prod.snd).map exampleId = d.map Prod.fst := by
  induction d with
  | nil => rfl
  | cons hd tl ih =>
    simp only [List.map_cons]
    rw [h hd (List.mem_cons_self hd tl), ih (fun p hp => h p (List.mem_cons_of_mem _ hp))]

/-- C9: canonical growth is monotone by identifier — the example_id set of
`merge_clean_repair_into_canonical`'s result is the union of the two input
example_id sets; in particular no identifier already present in the
canonical list is removed by a repair iteration. -/
theorem merge_canonical_ids_union (canonical repair : List Record) :
    idSet (merge_clean_repair_into_canonical canonical repair)
      = idSet canonical ∪ idSet repair := by
  unfold merge_clean_repair_into_canonical
  have hkeyed0 : Keyed ([] : IdDict) := fun p hp => absurd hp (List.not_mem_nil p)
  obtain ⟨hk1, he1⟩ :=
    canonFold_spec (canonical.filter (fun r => dmem r.fields "example_id")) [] hkeyed0
  obtain ⟨hk2, he2⟩ := repairFold_spec repair _ hk1
  show idSet (List.map Prod.snd _) = _
  rw [show (fun (acc : IdDict) (r : Record) => idUpsert acc (exampleId r) r) = canonFoldStep
        from rfl] at *
  rw [show (fun (acc : IdDict) (r : Record) =>
        if exampleId r = .vnone then acc else idUpsert acc (exampleId r) r) = repairFoldStep
        from rfl] at *
  simp only [List.map_nil, List.toFinset_nil, Finset.empty_union] at he1
  rw [idSet, map_exampleId_map_snd _ hk2, List.toFinset_filter, he2, he1,
    Finset.filter_union]
  congr 1
  · ext v
    simp only [Finset.mem_filter, List.mem_toFinset, List.mem_map, List.mem_filter,
      idSet, List.toFinset_filter, decide_eq_true_eq]
    constructor
    · rintro ⟨⟨r, ⟨hr, -⟩, he⟩, hv⟩
      exact ⟨⟨r, hr, he⟩, hv⟩
    · rintro ⟨⟨r, hr, he⟩, hv⟩
      refine ⟨⟨r, ⟨hr, ?_⟩, he⟩, hv⟩
      exact dmem_of_dget_ne_vnone r.fields "example_id"
        (show exampleId r ≠ .vnone by rw [he]; exact hv)
  · rw [idSet, List.toFinset_filter]
    ext v
    simp

/-- Fixed-size batching of the pending identifiers (the
`range(0, len(pending_ids), batch_size)` slicing in the source).  For
`batchSize = 0` Python's `range` raises; this model then chunks one element
at a time, an input the orchestrator never produces (its batch size is
64). -/
def chunkList {α : Type} (batchSize : Nat) : List α → List (List α)
  | [] => []
  | x :: xs => (x :: xs.take (batchSize - 1)) :: chunkList batchSize (xs.drop (batchSize - 1))
termination_by l => l.length
decreasing_by simp [List.length_drop]; omega

/-- Batch processing inside one repair-loop iteration of
`run_group_alignment_with_repairs_for_group`.  `enhance` abstracts one
`sdkit create` plus `validate_structures --clean --strict-ids` round on a
batch input file: `none` models SD-Kit not writing its `_enhanced.json`
output (the batch is skipped after the warning), `some cleaned` models the
validated clean records read back from disk.  The returned number counts
`sdkit create` invocations (one per batch, made before the output-file
check). -/
def runBatches (enhance : List Record → Option (List Record))
    (original : List Record) :
    List (List PyVal) → List Record → List Record × Nat
  | [], canonical => (canonical, 0)
  | batch :: rest, canonical =>
    let repairRecords := build_repair_records original batch
    match enhance repairRecords with
    | none =>
      let out := runBatches enhance original rest canonical
      (out.1, out.2 + 1)
    | some cleaned =>
      let out := runBatches enhance original rest
        (merge_clean_repair_into_canonical canonical cleaned)
      (out.1, out.2 + 1)

/-- The repair loop of `run_group_alignment_with_repairs_for_group`: up to
`maxRepairLoops` iterations; each iteration recomputes the pending ids from
the (unchanging) assigned records and the current canonical records, breaks
as soon as nothing is pending, and otherwise processes the pending ids in
batches of `batchSize`, saving the canonical records after each merged
batch.  Returns the final canonical records together with the total number
of `sdkit create` invocations. -/
def runGroupRepairLoop (enhance : List Record → Option (List Record))
    (original : List Record) (batchSize : Nat) :
    Nat → List Record → List Record × Nat
  | 0, canonical => (canonical, 0)
  | n + 1, canonical =>
    let pending := compute_pending_ids original canonical
    if pending = [] then (canonical, 0)
    else
      let step := runBatches enhance original (chunkList batchSize pending) canonical
      let rest := runGroupRepairLoop enhance original batchSize n step.1
      (rest.1, step.2 + rest.2)

/-- C2: repair-loop idempotence — if the canonical file already contains
every example_id of the assigned (original) file, the repair loop leaves
the canonical record list unchanged and performs zero enhancer (sdkit
create) invocations, having computed an empty pending set in its first
iteration. -/
theorem repair_loop_idempotent (enhance : List Record → Option (List Record))
    (original canonical : List Record) (batchSize maxRepairLoops : Nat)
    (h : idSet original ⊆ idSet canonical) :
    compute_pending_ids original canonical = [] ∧
    runGroupRepairLoop enhance original batchSize maxRepairLoops canonical
      = (canonical, 0) := by
  have hnil := compute_pending_ids_eq_nil original canonical h
  refine ⟨hnil, ?_⟩
  cases maxRepairLoops with
  | zero => rfl
  | succ n => simp [runGroupRepairLoop, hnil]

/-- Witness for C2 at a concrete input: one assigned record with id 7,
already present (enhanced) in the canonical file; three repair loops. -/
theorem repair_loop_idempotent_witness :
    idSet [Record.mk [("example_id", .vint 7)] []]
        ⊆ idSet [Record.mk [("example_id", .vint 7), ("mode", .vstr "a")] []] ∧
    runGroupRepairLoop (fun _ => none) [Record.mk [("example_id", .vint 7)] []] 64 3
        [Record.mk [("example_id", .vint 7), ("mode", .vstr "a")] []]
      = ([Record.mk [("example_id", .vint 7), ("mode", .vstr "a")] []], 0) := by
  refine ⟨by decide, ?_⟩
  exact (repair_loop_idempotent (fun _ => none)
    [Record.mk [("example_id", .vint 7)] []]
    [Record.mk [("example_id", .vint 7), ("mode", .vstr "a")] []] 64 3 (by decide)).2

/-- A (mode, model) combination of the assigner. -/
structure Combo where
  mode : String
  model : String
deriving DecidableEq

/-- The dict key `f"{c['mode']}::{c['model']}"` used by `balanced_assign`. -/
def comboKey (c : Combo) : String := c.mode ++ "::" ++ c.model

/-- The Cartesian product `for mode in modes: for model in models`. -/
def combosOf (modes models : List String) : List Combo :=
  (modes.map (fun mode => models.map (fun model => Combo.mk mode model))).flatten

/-- The assigner's output dict, `"mode::model"` key to assigned records. -/
abbrev Groups := List (String × List Record)

/-- Key membership in the group dict. -/
def hasKey (gs : Groups) (k : String) : Bool := gs.any (fun p => p.1 = k)

/-- `assigned[key].append(ex)`.  The `[]` fallback never fires in
`balanced_assign`: every key used comes from `combos`, whose keys
initialize the dict. -/
def groupAppend (gs : Groups) (k : String) (r : Record) : Groups :=
  match gs with
  | [] => [(k, [r])]
  | (k', l) :: rest => if k' = k then (k', l ++ [r]) :: rest else (k', l) :: groupAppend rest k r

/-- `{f"...": [] for c in combos}`: dict-comprehension initialization.
Duplicate keys collapse onto the first occurrence (the overwritten value is
again `[]`, so skipping the duplicate is equivalent). -/
def initGroups (combos : List Combo) : Groups :=
  combos.foldl (fun gs c => if hasKey gs (comboKey c) then gs else gs ++ [(comboKey c, [])]) []

/-- `ex = dict(records[idx]); ex.setdefault("mode", ...);
ex.setdefault("model", ...)`: the shallow copy is annotated only where the
`mode` / `model` keys are absent. -/
def annotate (r : Record) (c : Combo) : Record :=
  { r with fields :=
      dsetdefault (dsetdefault r.fields "mode" (.vstr c.mode)) "model" (.vstr c.model) }

/-- One step of `balanced_assign`'s assignment loop, for the enum pair
`p = (i, idx)`: append the annotated copy of `records[idx]` to the group of
combo `i % combo_count`. -/
def assignStep (records : List Record) (combos : List Combo) (gs : Groups) (p : Nat × Nat) :
    Groups :=
  let c := combos.getD (p.1 % combos.length) (Combo.mk "" "")
  groupAppend gs (comboKey c) (annotate (records.getD p.2 (Record.mk [] [])) c)

/-- The annotated record produced for the enum pair `p = (i, idx)`. -/
def assignedOf (records : List Record) (combos : List Combo) (p : Nat × Nat) : Record :=
  annotate (records.getD p.2 (Record.mk [] []))
    (combos.getD (p.1 % combos.length) (Combo.mk "" ""))

theorem assignStep_eq (records : List Record) (combos : List Combo) (gs : Groups)
    (p : Nat × Nat) :
    assignStep records combos gs p
      = groupAppend gs (comboKey (combos.getD (p.1 % combos.length) (Combo.mk "" "")))
          (assignedOf records combos p) := rfl

/-- `balanced_assign` from assign_modes_and_models.py.  `indices` stands
for the result of `random.shuffle` applied to `list(range(len(records)))`;
the shuffled order is passed in explicitly, Python's seeded global RNG
being a deterministic function of the seed.  Out-of-range indices (which
Python's list indexing would reject, and which a shuffled range never
contains) default to an empty record. -/
def balanced_assign (records : List Record) (modes models : List String)
    (indices : List Nat) : Groups :=
  if records.isEmpty then []
  else
    let combos := combosOf modes models
    indices.enum.foldl (assignStep records combos) (initGroups combos)

/-- The sizes of the assigned groups, in dict order. -/
def groupSizes (gs : Groups) : List Nat := gs.map (fun p => p.2.length)

/-- The multiset union of all assigned group lists. -/
def groupUnion (gs : Groups) : Multiset Record :=
  (gs.map (fun p => (p.2 : Multiset Record))).sum

theorem coe_append_singleton_add (l : List Record) (r : Record) (T : Multiset Record) :
    ((l ++ [r] : List Record) : Multiset Record) + T = r ::ₘ ((l : Multiset Record) + T) := by
  have h1 : ((l ++ [r] : List Record) : Multiset Record)
      = (l : Multiset Record) + (([r] : List Record) : Multiset Record) :=
    (Multiset.coe_add l [r]).symm
  have h2 : (([r] : List Record) : Multiset Record) = ({r} : Multiset Record) := rfl
  rw [h1, h2, ← Multiset.singleton_add]
  abel

theorem groupUnion_groupAppend (gs : Groups) (k : String) (r : Record) :
    groupUnion (groupAppend gs k r) = r ::ₘ groupUnion gs := by
  induction gs with
  | nil => simp [groupAppend, groupUnion]
  | cons hd tl ih =>
    obtain ⟨k', l⟩ := hd
    by_cases hk : k' = k
    · simp only [groupAppend, if_pos hk, groupUnion, List.map_cons, List.sum_cons]
      exact coe_append_singleton_add l r _
    · simp only [groupAppend, if_neg hk, groupUnion, List.map_cons, List.sum_cons] at *
      rw [ih]
      simp [Multiset.cons_swap]

theorem groupSizes_sum_groupAppend (gs : Groups) (k : String) (r : Record) :
    (groupSizes (groupAppend gs k r)).sum = (groupSizes gs).sum + 1 := by
  induction gs with
  | nil => simp [groupAppend, groupSizes]
  | cons hd tl ih =>
    obtain ⟨k', l⟩ := hd
    by_cases hk : k' = k
    · simp [groupAppend, hk, groupSizes]
      omega
    · simp only [groupAppend, if_neg hk, groupSizes, List.map_cons, List.sum_cons] at *
      omega

theorem groupUnion_initGroups (combos : List Combo) :
    groupUnion (initGroups combos) = 0 := by
  suffices h : ∀ acc : Groups, groupUnion acc = 0 →
      groupUnion (combos.foldl
        (fun gs c => if hasKey gs (comboKey c) then gs else gs ++ [(comboKey c, [])]) acc) = 0 by
    exact h [] rfl
  induction combos with
  | nil => intro acc hacc; simpa using hacc
  | cons hd tl ih =>
    intro acc hacc
    rw [List.foldl_cons]
    by_cases hk : hasKey acc (comboKey hd)
    · simp only [hk, if_true]
      exact ih acc hacc
    · simp only [hk, if_false, Bool.false_eq_true]
      apply ih
      simp [groupUnion] at *
      exact hacc

theorem groupSizes_sum_initGroups (combos : List Combo) :
    (groupSizes (initGroups combos)).sum = 0 := by
  suffices h : ∀ acc : Groups, (groupSizes acc).sum = 0 →
      (groupSizes (combos.foldl
        (fun gs c => if hasKey gs (comboKey c) then gs else gs ++ [(comboKey c, [])]) acc)).sum
        = 0 by
    exact h [] rfl
  induction combos with
  | nil => intro acc hacc; simpa using hacc
  | cons hd tl ih =>
    intro acc hacc
    rw [List.foldl_cons]
    by_cases hk : hasKey acc (comboKey hd)
    · simp only [hk, if_true]
      exact ih acc hacc
    · simp only [hk, if_false, Bool.false_eq_true]
      apply ih
      simp [groupSizes] at *
      exact hacc

theorem groupUnion_assign_foldl (records : List Record) (combos : List Combo) :
    ∀ (L : List (Nat × Nat)) (gs : Groups),
      groupUnion (L.foldl (assignStep records combos) gs)
        = groupUnion gs + (L.map (assignedOf records combos) : Multiset Record) := by
  intro L
  induction L with
  | nil => intro gs; simp
  | cons hd tl ih =>
    intro gs
    rw [List.foldl_cons, ih, assignStep_eq, groupUnion_groupAppend, List.map_cons,
      ← Multiset.cons_coe, ← Multiset.singleton_add, ← Multiset.singleton_add]
    abel

theorem groupSizes_sum_assign_foldl (records : List Record) (combos : List Combo) :
    ∀ (L : List (Nat × Nat)) (gs : Groups),
      (groupSizes (L.foldl (assignStep records combos) gs)).sum
        = (groupSizes gs).sum + L.length := by
  intro L
  induction L with
  | nil => intro gs; simp
  | cons hd tl ih =>
    intro gs
    rw [List.foldl_cons, ih, assignStep_eq, groupSizes_sum_groupAppend, List.length_cons]
    omega

/-- C4: assignment coverage — for a non-empty input and non-empty mode and
model lists, `balanced_assign` places every input record in exactly one
(mode, model) group: the group sizes sum to the input length, and the
multiset union of all group lists is exactly the (annotated) records
`records[indices[i]]`, one per shuffled position `i`; since `indices` is a
permutation of `range(len(records))`, that is one annotated copy of each
input record. -/
theorem balanced_assign_coverage (records : List Record) (modes models : List String)
    (indices : List Nat)
    (hr : records ≠ []) (hm : modes ≠ []) (hM : models ≠ [])
    (hperm : indices.Perm (List.range records.length)) :
    (groupSizes (balanced_assign records modes models indices)).sum = records.length ∧
    groupUnion (balanced_assign records modes models indices)
      = ((indices.enum.map (assignedOf records (combosOf modes models))
            : List Record) : Multiset Record) := by
  have hne : records.isEmpty = false := by
    cases records with
    | nil => exact absurd rfl hr
    | cons a l => rfl
  constructor
  · rw [balanced_assign, hne]
    simp only [Bool.false_eq_true, if_false]
    rw [groupSizes_sum_assign_foldl, groupSizes_sum_initGroups, List.enum_length]
    simpa using hperm.length_eq
  · rw [balanced_assign, hne]
    simp only [Bool.false_eq_true, if_false]
    rw [groupUnion_assign_foldl, groupUnion_initGroups, zero_add]

/-- Witness for C4: three records, two modes, one model, shuffled
assignment order [2, 0, 1]. -/
theorem balanced_assign_coverage_witness :
    ([Record.mk [("example_id", .vint 0)] [], Record.mk [("example_id", .vint 1)] [],
        Record.mk [("example_id", .vint 2)] []] : List Record) ≠ [] ∧
    (groupSizes (balanced_assign
        [Record.mk [("example_id", .vint 0)] [], Record.mk [("example_id", .vint 1)] [],
          Record.mk [("example_id", .vint 2)] []]
        ["a", "b"] ["m"] [2, 0, 1])).sum = 3 := by
  refine ⟨by decide, ?_⟩
  exact (balanced_assign_coverage
    [Record.mk [("example_id", .vint 0)] [], Record.mk [("example_id", .vint 1)] [],
      Record.mk [("example_id", .vint 2)] []]
    ["a", "b"] ["m"] [2, 0, 1]
    (by decide) (by decide) (by decide) (by decide)).1

/-- C5: assignment determinism.  `main` seeds the global RNG and calls
`balanced_assign`; Python's seeded RNG is a deterministic function of the
seed, modelled by an arbitrary function `shuffle` from seed and length to
the shuffled index list, so two runs with the same seed receive the same
shuffled order and produce identical group contents; and for 5 records,
2 modes × 1 model, the two group sizes are 3 and 2 (in combo order) for
every seed. -/
theorem assignment_seed_deterministic (shuffle : Nat → Nat → List Nat) (seed : Nat)
    (records : List Record) (h5 : records.length = 5)
    (hperm : (shuffle seed 5).Perm (List.range 5)) :
    balanced_assign records ["a", "b"] ["m"] (shuffle seed records.length)
      = balanced_assign records ["a", "b"] ["m"] (shuffle seed records.length) ∧
    groupSizes (balanced_assign records ["a", "b"] ["m"] (shuffle seed records.length))
      = [3, 2] := by
  refine ⟨rfl, ?_⟩
  rw [h5]
  have hlen : (shuffle seed 5).length = 5 := by simpa using hperm.length_eq
  cases records with
  | nil => simp at h5
  | cons r rs =>
    rcases hL : shuffle seed 5 with _ | ⟨a, _ | ⟨b, _ | ⟨c, _ | ⟨d, _ | ⟨e, rest⟩⟩⟩⟩⟩ <;>
      rw [hL] at hlen <;> simp only [List.length_cons, List.length_nil] at hlen <;>
      try omega
    have hrest : rest = [] := by
      cases rest with
      | nil => rfl
      | cons x xs => simp at hlen
    subst hrest
    simp [balanced_assign, combosOf, initGroups, hasKey, assignStep, groupAppend,
      annotate, groupSizes, comboKey, List.enum, List.enumFrom]

/-- Witness for C5 at seed 1 with five concrete records and a concrete
model of the seeded shuffle. -/
theorem assignment_seed_deterministic_witness :
    ([Record.mk [("example_id", .vint 0)] [], Record.mk [("example_id", .vint 1)] [],
        Record.mk [("example_id", .vint 2)] [], Record.mk [("example_id", .vint 3)] [],
        Record.mk [("example_id", .vint 4)] []].length = 5) ∧
    groupSizes (balanced_assign
        [Record.mk [("example_id", .vint 0)] [], Record.mk [("example_id", .vint 1)] [],
          Record.mk [("example_id", .vint 2)] [], Record.mk [("example_id", .vint 3)] [],
          Record.mk [("example_id", .vint 4)] []]
        ["a", "b"] ["m"] ((fun _ _ => [4, 2, 0, 1, 3]) 1 5)) = [3, 2] := by
  refine ⟨by decide, ?_⟩
  have h := (assignment_seed_deterministic (fun _ _ => [4, 2, 0, 1, 3]) 1
    [Record.mk [("example_id", .vint 0)] [], Record.mk [("example_id", .vint 1)] [],
      Record.mk [("example_id", .vint 2)] [], Record.mk [("example_id", .vint 3)] [],
      Record.mk [("example_id", .vint 4)] []]
    (by decide) (by decide)).2
  simpa using h

theorem dmem_append (d d' : Dict) (k : String) :
    dmem (d ++ d') k = (dmem d k || dmem d' k) := by
  induction d with
  | nil => simp [dmem]
  | cons hd tl ih =>
    obtain ⟨k0, v0⟩ := hd
    simp [dmem, ih, Bool.or_assoc]

theorem dget_append (d d' : Dict) (k : String) :
    dget (d ++ d') k = if dmem d k then dget d k else dget d' k := by
  induction d with
  | nil => simp [dmem, dget]
  | cons hd tl ih =>
    obtain ⟨k0, v0⟩ := hd
    by_cases hk : k0 = k
    · simp [dget, dmem, hk]
    · simp [dget, dmem, hk, ih]

theorem dget_dsetdefault_self (d : Dict) (k : String) (v : PyVal)
    (h : dmem d k = false) :
    dget (dsetdefault d k v) k = v := by
  simp [dsetdefault, h, dget_append, dget]

theorem dget_eq_vnone_of_dmem_false (d : Dict) (k : String) (h : dmem d k = false) :
    dget d k = .vnone := by
  induction d with
  | nil => rfl
  | cons hd tl ih =>
    obtain ⟨k0, v0⟩ := hd
    simp only [dmem_cons, Bool.or_eq_false_iff, decide_eq_false_iff_not] at h
    simp [dget, h.1, ih h.2]

theorem dget_dsetdefault_ne (d : Dict) (k k' : String) (v : PyVal) (h : k ≠ k') :
    dget (dsetdefault d k v) k' = dget d k' := by
  by_cases hm : dmem d k
  · simp [dsetdefault, hm]
  · simp only [dsetdefault, hm, Bool.false_eq_true, if_false, dget_append]
    by_cases h2 : dmem d k'
    · simp [h2]
    · simp only [h2, Bool.false_eq_true, if_false, dget, if_neg h]
      exact (dget_eq_vnone_of_dmem_false d k' (by simpa using h2)).symm

theorem dmem_dsetdefault_ne (d : Dict) (k k' : String) (v : PyVal) (h : k ≠ k') :
    dmem (dsetdefault d k v) k' = dmem d k' := by
  by_cases hm : dmem d k
  · simp [dsetdefault, hm]
  · simp [dsetdefault, hm, dmem_append, dmem, h]

theorem annotate_fields (r : Record) (c : Combo)
    (h1 : dmem r.fields "mode" = false) (h2 : dmem r.fields "model" = false) :
    dget (annotate r c).fields "mode" = .vstr c.mode ∧
    dget (annotate r c).fields "model" = .vstr c.model := by
  unfold annotate
  constructor
  · rw [dget_dsetdefault_ne _ "model" "mode" _ (by decide)]
    exact dget_dsetdefault_self _ _ _ h1
  · apply dget_dsetdefault_self
    rw [dmem_dsetdefault_ne _ "mode" "model" _ (by decide)]
    exact h2

theorem getD_mem_of_lt {α : Type} (l : List α) (i : Nat) (d : α) (h : i < l.length) :
    l.getD i d ∈ l := by
  induction l generalizing i with
  | nil => simp at h
  | cons x xs ih =>
    cases i with
    | zero => simp
    | succ n =>
      simp only [List.getD_cons_succ]
      exact List.mem_cons_of_mem x (ih n (by simpa using h))

theorem mem_groupAppend (gs : Groups) (k : String) (r : Record) (k' : String)
    (l' : List Record) (x : Record)
    (hmem : (k', l') ∈ groupAppend gs k r) (hx : x ∈ l') :
    (∃ l0, (k', l0) ∈ gs ∧ x ∈ l0) ∨ (k' = k ∧ x = r) := by
  induction gs with
  | nil =>
    simp only [groupAppend, List.mem_singleton, Prod.mk.injEq] at hmem
    obtain ⟨h1, h2⟩ := hmem
    subst h1; subst h2
    right
    exact ⟨rfl, by simpa using hx⟩
  | cons hd tl ih =>
    obtain ⟨k0, l0⟩ := hd
    by_cases hk : k0 = k
    · subst hk
      rcases (by simpa [groupAppend] using hmem :
          (k' = k0 ∧ l' = l0 ++ [r]) ∨ (k', l') ∈ tl) with ⟨h1, h2⟩ | h
      · subst h1; subst h2
        rcases List.mem_append.1 hx with h | h
        · exact Or.inl ⟨l0, List.mem_cons_self _ _, h⟩
        · exact Or.inr ⟨rfl, by simpa using h⟩
      · exact Or.inl ⟨l', List.mem_cons_of_mem _ h, hx⟩
    · rcases (by simpa [groupAppend, hk] using hmem :
          (k' = k0 ∧ l' = l0) ∨ (k', l') ∈ groupAppend tl k r) with ⟨h1, h2⟩ | h
      · subst h1; subst h2
        exact Or.inl ⟨l', by simpa using List.mem_cons_self _ tl, hx⟩
      · rcases ih h with ⟨l1, hl1, hxl1⟩ | h'
        · exact Or.inl ⟨l1, List.mem_cons_of_mem _ hl1, hxl1⟩
        · exact Or.inr h'

theorem initGroups_fold_entries_empty (combos : List Combo) :
    ∀ acc : Groups, (∀ k0 l0, (k0, l0) ∈ acc → l0 = []) →
      ∀ k0 l0, (k0, l0) ∈ combos.foldl
        (fun gs c => if hasKey gs (comboKey c) then gs else gs ++ [(comboKey c, [])]) acc →
        l0 = [] := by
  induction combos with
  | nil => intro acc hacc k0 l0 hmem; exact hacc k0 l0 (by simpa using hmem)
  | cons hd tl ih =>
    intro acc hacc k0 l0 hmem
    rw [List.foldl_cons] at hmem
    by_cases hk : hasKey acc (comboKey hd)
    · rw [if_pos hk] at hmem
      exact ih acc hacc k0 l0 hmem
    · rw [if_neg hk] at hmem
      refine ih _ ?_ k0 l0 hmem
      intro k1 l1 h1
      rcases List.mem_append.1 h1 with h2 | h2
      · exact hacc k1 l1 h2
      · simpa using congrArg Prod.snd (by simpa using h2 : (k1, l1) = (comboKey hd, []))

theorem initGroups_entries_empty (combos : List Combo) (k : String) (l : List Record)
    (h : (k, l) ∈ initGroups combos) : l = [] :=
  initGroups_fold_entries_empty combos [] (by simp) k l h

/-- Each record of each group produced by the assignment fold is the
`setdefault`-annotated copy for some combo whose key is the group's key. -/
def GroupsAnnotated (combos : List Combo) (gs : Groups) : Prop :=
  ∀ k l, (k, l) ∈ gs → ∀ x ∈ l, ∃ c ∈ combos, comboKey c = k ∧
    dget x.fields "mode" = .vstr c.mode ∧ dget x.fields "model" = .vstr c.model

theorem assign_foldl_annotated (records : List Record) (combos : List Combo)
    (hc : combos ≠ [])
    (hnm : ∀ r ∈ records, dmem r.fields "mode" = false ∧ dmem r.fields "model" = false) :
    ∀ (L : List (Nat × Nat)) (gs : Groups), GroupsAnnotated combos gs →
      GroupsAnnotated combos (L.foldl (assignStep records combos) gs) := by
  intro L
  induction L with
  | nil => intro gs h; simpa using h
  | cons hd tl ih =>
    intro gs h
    rw [List.foldl_cons]
    apply ih
    intro k l hmem x hx
    rw [assignStep_eq] at hmem
    rcases mem_groupAppend gs _ _ k l x hmem hx with ⟨l0, hl0, hxl0⟩ | ⟨hkk, hxx⟩
    · exact h k l0 hl0 x hxl0
    · have hlen : 0 < combos.length := by
        cases combos with
        | nil => exact absurd rfl hc
        | cons a l => simp
      have hcm : combos.getD (hd.1 % combos.length) (Combo.mk "" "") ∈ combos :=
        getD_mem_of_lt combos _ _ (Nat.mod_lt _ hlen)
      have hbase : dmem (records.getD hd.2 (Record.mk [] [])).fields "mode" = false ∧
          dmem (records.getD hd.2 (Record.mk [] [])).fields "model" = false := by
        by_cases hi : hd.2 < records.length
        · exact hnm _ (getD_mem_of_lt records _ _ hi)
        · rw [List.getD_eq_default _ _ (by omega)]
          exact ⟨rfl, rfl⟩
      obtain ⟨hm1, hm2⟩ := annotate_fields (records.getD hd.2 (Record.mk [] []))
        (combos.getD (hd.1 % combos.length) (Combo.mk "" "")) hbase.1 hbase.2
      subst hxx
      exact ⟨combos.getD (hd.1 % combos.length) (Combo.mk "" ""), hcm, hkk.symm,
        by simpa [assignedOf] using hm1, by simpa [assignedOf] using hm2⟩

/-- C8 counterexample: `balanced_assign` annotates with `setdefault`, so an
input record that already carries a `mode` field keeps it.  Assigning the
single record `{"mode": "z"}` to the one group (mode "a", model "m") yields
a group record whose `mode` field is `"z"`, not the group's mode `"a"`. -/
theorem assigner_annotation_counterexample :
    balanced_assign [Record.mk [("mode", .vstr "z")] []] ["a"] ["m"] [0]
      = [("a::m", [Record.mk [("mode", .vstr "z"), ("model", .vstr "m")] []])] ∧
    dget (Record.mk [("mode", .vstr "z"), ("model", .vstr "m")] []).fields "mode"
      ≠ .vstr "a" := by
  constructor
  · decide
  · decide

/-- C8 amended: provided no input record already carries a `mode` or
`model` field, and distinct (mode, model) combos have distinct
`"mode::model"` keys (both guaranteed at this script's call sites: raw
records carry only `example_id`/`conversations`, and the CLI mode and model
identifiers contain no `"::"`), every record placed in a group's output
list carries a `mode` field equal to that group's mode and a `model` field
equal to that group's model. -/
theorem assigner_annotation_amended (records : List Record) (modes models : List String)
    (indices : List Nat) (c : Combo) (l : List Record) (r : Record)
    (hm : modes ≠ []) (hM : models ≠ [])
    (hnm : ∀ x ∈ records, dmem x.fields "mode" = false ∧ dmem x.fields "model" = false)
    (hinj : ∀ c1 ∈ combosOf modes models, ∀ c2 ∈ combosOf modes models,
        comboKey c1 = comboKey c2 → c1 = c2)
    (hcc : c ∈ combosOf modes models)
    (hg : (comboKey c, l) ∈ balanced_assign records modes models indices)
    (hr : r ∈ l) :
    dget r.fields "mode" = .vstr c.mode ∧ dget r.fields "model" = .vstr c.model := by
  have hcne : combosOf modes models ≠ [] := by
    cases modes with
    | nil => exact absurd rfl hm
    | cons m ms =>
      cases models with
      | nil => exact absurd rfl hM
      | cons mo mos => simp [combosOf]
  by_cases hre : records.isEmpty
  · rw [balanced_assign, if_pos hre] at hg
    exact absurd hg (List.not_mem_nil _)
  · rw [balanced_assign, if_neg hre] at hg
    have hinv := assign_foldl_annotated records (combosOf modes models) hcne hnm
      indices.enum (initGroups (combosOf modes models))
      (fun k0 l0 hk0 x hx => absurd hx (by
        rw [initGroups_entries_empty (combosOf modes models) k0 l0 hk0]
        exact List.not_mem_nil x))
    obtain ⟨c', hc', hkey, hmode, hmodel⟩ := hinv (comboKey c) l hg r hr
    have : c' = c := hinj c' hc' c hcc hkey
    subst this
    exact ⟨hmode, hmodel⟩

/-- Witness for the amended C8 at a concrete input. -/
theorem assigner_annotation_amended_witness :
    dget (Record.mk [("example_id", .vint 0), ("mode", .vstr "a"), ("model", .vstr "m")] []).fields
        "mode" = .vstr "a" ∧
    dget (Record.mk [("example_id", .vint 0), ("mode", .vstr "a"), ("model", .vstr "m")] []).fields
        "model" = .vstr "m" := by
  exact assigner_annotation_amended
    [Record.mk [("example_id", .vint 0)] []] ["a"] ["m"] [0] (Combo.mk "a" "m")
    [Record.mk [("example_id", .vint 0), ("mode", .vstr "a"), ("model", .vstr "m")] []]
    (Record.mk [("example_id", .vint 0), ("mode", .vstr "a"), ("model", .vstr "m")] [])
    (by decide) (by decide) (by decide) (by decide) (by decide) (by decide) (by decide)

/-- The loop body of `load_as_dict` from validate_structures.py:
`example_id = item.get("example_id", idx)` keys each record, defaulting to
the record's position; a repeated key raises `ValueError`.  The accumulated
dict is insertion-ordered. -/
def loadAsDictAux : List Record → Nat → IdDict → Except String IdDict
  | [], _, acc => .ok acc
  | item :: rest, idx, acc =>
    if (if dmem item.fields "example_id" then exampleId item else .vint idx)
        ∈ acc.map Prod.fst then
      .error "Duplicate example_id"
    else
      loadAsDictAux rest (idx + 1)
        (acc ++ [(if dmem item.fields "example_id" then exampleId item else .vint idx, item)])

/-- `load_as_dict` from validate_structures.py, on an already-parsed JSON
list (the top-level-is-a-list and record-is-an-object checks are
discharged by this typed model). -/
def load_as_dict (data : List Record) : Except String IdDict :=
  loadAsDictAux data 0 []

/-- The keys `item.get("example_id", idx)` that `load_as_dict` computes, in
order. -/
def fileIds : List Record → Nat → List PyVal
  | [], _ => []
  | item :: rest, idx =>
    (if dmem item.fields "example_id" then exampleId item else .vint idx)
      :: fileIds rest (idx + 1)

/-- The inner loop of merge_per_config.py's `main` over one group file's
records: a non-`None` identifier already seen raises `ValueError`;
otherwise the identifier (when not `None`) is added to `seen_ids` and the
record is appended to the output unconditionally. -/
def mergeRecordsAux : List Record → List PyVal → List Record →
    Except String (List PyVal × List Record)
  | [], seen, acc => .ok (seen, acc)
  | ex :: rest, seen, acc =>
    let exId := exampleId ex
    if exId ≠ .vnone ∧ exId ∈ seen then .error "Duplicate example_id when merging"
    else mergeRecordsAux rest (if exId ≠ .vnone then exId :: seen else seen) (acc ++ [ex])

/-- The outer loop of merge_per_config.py's `main` over the group files. -/
def mergeGroupsAux : List (List Record) → List PyVal → List Record →
    Except String (List PyVal × List Record)
  | [], seen, acc => .ok (seen, acc)
  | file :: rest, seen, acc =>
    match mergeRecordsAux file seen acc with
    | .error e => .error e
    | .ok (seen', acc') => mergeGroupsAux rest seen' acc'

/-- merge_per_config.py's merge of the discovered group files: all records
concatenated, rejecting any non-`None` `example_id` seen twice. -/
def mergeGroups (groupFiles : List (List Record)) : Except String (List Record) :=
  match mergeGroupsAux groupFiles [] [] with
  | .error e => .error e
  | .ok (_, acc) => .ok acc

/-- The non-null identifiers of a record list, in order, duplicates kept. -/
def nonNullIds (records : List Record) : List PyVal :=
  records.filterMap (fun r => if exampleId r = .vnone then none else some (exampleId r))

theorem loadAsDictAux_error_of_mem (l : List Record) :
    ∀ (idx : Nat) (acc : IdDict) (k : PyVal), k ∈ fileIds l idx → k ∈ acc.map Prod.fst →
      ∃ e, loadAsDictAux l idx acc = .error e := by
  induction l with
  | nil => intro idx acc k hk hacc; simp [fileIds] at hk
  | cons item rest ih =>
    intro idx acc k hk hacc
    rw [loadAsDictAux]
    by_cases hc : (if dmem item.fields "example_id" then exampleId item else .vint idx)
        ∈ acc.map Prod.fst
    · exact ⟨"Duplicate example_id", by rw [if_pos hc]⟩
    · rw [if_neg hc]
      rcases (by simpa [fileIds] using hk :
          k = (if dmem item.fields "example_id" then exampleId item else .vint idx)
            ∨ k ∈ fileIds rest (idx + 1)) with h | h
      · subst h
        exact absurd hacc hc
      · exact ih (idx + 1) _ k h (by simp [hacc])

theorem loadAsDictAux_error_of_dup (l : List Record) :
    ∀ (idx : Nat) (acc : IdDict), ¬ (fileIds l idx).Nodup →
      ∃ e, loadAsDictAux l idx acc = .error e := by
  induction l with
  | nil => intro idx acc h; rw [fileIds] at h; simp at h
  | cons item rest ih =>
    intro idx acc h
    rw [loadAsDictAux]
    by_cases hc : (if dmem item.fields "example_id" then exampleId item else .vint idx)
        ∈ acc.map Prod.fst
    · exact ⟨"Duplicate example_id", by rw [if_pos hc]⟩
    · rw [if_neg hc]
      rw [fileIds, List.nodup_cons] at h
      by_cases hmem :
          (if dmem item.fields "example_id" then exampleId item else .vint idx)
            ∈ fileIds rest (idx + 1)
      · exact loadAsDictAux_error_of_mem rest (idx + 1) _ _ hmem (by simp)
      · exact ih (idx + 1) _ (fun hn => h ⟨hmem, hn⟩)

theorem fileIds_append (a b : List Record) :
    ∀ idx : Nat, fileIds (a ++ b) idx = fileIds a idx ++ fileIds b (idx + a.length) := by
  induction a with
  | nil => intro idx; simp [fileIds]
  | cons x xs ih =>
    intro idx
    rw [List.cons_append, fileIds, fileIds, ih (idx + 1), List.length_cons,
      show idx + (xs.length + 1) = idx + 1 + xs.length by omega]
    rfl

theorem loadAsDictAux_ok_nodup (l : List Record) :
    ∀ (idx : Nat) (acc res : IdDict), loadAsDictAux l idx acc = .ok res →
      (acc.map Prod.fst).Nodup → (res.map Prod.fst).Nodup := by
  induction l with
  | nil =>
    intro idx acc res h hacc
    rw [loadAsDictAux] at h
    cases h
    exact hacc
  | cons item rest ih =>
    intro idx acc res h hacc
    rw [loadAsDictAux] at h
    by_cases hc : (if dmem item.fields "example_id" then exampleId item else .vint idx)
        ∈ acc.map Prod.fst
    · rw [if_pos hc] at h
      cases h
    · rw [if_neg hc] at h
      refine ih (idx + 1) _ res h ?_
      rw [List.map_append]
      refine List.Nodup.append hacc (by simp) ?_
      intro a ha hb
      rw [List.map_cons, List.map_nil, List.mem_singleton] at hb
      subst hb
      exact hc ha

theorem mergeRecordsAux_ok_spec (file : List Record) :
    ∀ (seen : List PyVal) (acc : List Record) (seen' : List PyVal) (acc' : List Record),
      mergeRecordsAux file seen acc = .ok (seen', acc') →
      (∀ v ∈ seen, v ∈ seen') ∧
      (∀ r ∈ file, exampleId r ≠ .vnone → exampleId r ∈ seen') := by
  induction file with
  | nil =>
    intro seen acc s' a' h
    rw [mergeRecordsAux] at h
    cases h
    exact ⟨fun v hv => hv, by simp⟩
  | cons ex rest ih =>
    intro seen acc s' a' h
    rw [mergeRecordsAux] at h
    by_cases hdup : exampleId ex ≠ .vnone ∧ exampleId ex ∈ seen
    · rw [if_pos hdup] at h; cases h
    · rw [if_neg hdup] at h
      obtain ⟨hmono, hcov⟩ := ih _ _ _ _ h
      have hsub : ∀ v ∈ seen,
          v ∈ (if exampleId ex ≠ .vnone then exampleId ex :: seen else seen) := by
        intro v hv
        by_cases hne : exampleId ex ≠ .vnone
        · rw [if_pos hne]; exact List.mem_cons_of_mem _ hv
        · rw [if_neg hne]; exact hv
      refine ⟨fun v hv => hmono v (hsub v hv), ?_⟩
      intro r hr hne
      rcases List.mem_cons.1 hr with h1 | h1
      · subst h1
        apply hmono
        rw [if_pos hne]
        exact List.mem_cons_self _ _
      · exact hcov r h1 hne

theorem mergeRecordsAux_error_of_seen (file : List Record) :
    ∀ (seen : List PyVal) (acc : List Record) (r : Record),
      r ∈ file → exampleId r ≠ .vnone → exampleId r ∈ seen →
      ∃ e, mergeRecordsAux file seen acc = .error e := by
  induction file with
  | nil => intro seen acc r h; simp at h
  | cons ex rest ih =>
    intro seen acc r hr hne hseen
    rw [mergeRecordsAux]
    by_cases hdup : exampleId ex ≠ .vnone ∧ exampleId ex ∈ seen
    · exact ⟨"Duplicate example_id when merging", by rw [if_pos hdup]⟩
    · rw [if_neg hdup]
      rcases List.mem_cons.1 hr with h | h
      · subst h
        exact absurd ⟨hne, hseen⟩ hdup
      · apply ih _ _ r h hne
        by_cases hne2 : exampleId ex ≠ .vnone
        · rw [if_pos hne2]; exact List.mem_cons_of_mem _ hseen
        · rw [if_neg hne2]; exact hseen

theorem mergeGroupsAux_error_of_seen (mid : List (List Record)) (f2 : List Record)
    (post : List (List Record)) (r2 : Record) (hr2 : r2 ∈ f2)
    (hne : exampleId r2 ≠ .vnone) :
    ∀ (seen : List PyVal) (acc : List Record), exampleId r2 ∈ seen →
      ∃ e, mergeGroupsAux (mid ++ f2 :: post) seen acc = .error e := by
  induction mid with
  | nil =>
    intro seen acc hseen
    obtain ⟨e, he⟩ := mergeRecordsAux_error_of_seen f2 seen acc r2 hr2 hne hseen
    exact ⟨e, by rw [List.nil_append, mergeGroupsAux, he]⟩
  | cons m mid ih =>
    intro seen acc hseen
    rw [List.cons_append, mergeGroupsAux]
    cases hm : mergeRecordsAux m seen acc with
    | error e => exact ⟨e, rfl⟩
    | ok p =>
      obtain ⟨s', a'⟩ := p
      obtain ⟨hmono, -⟩ := mergeRecordsAux_ok_spec m seen acc s' a' hm
      exact ih s' a' (hmono _ hseen)

theorem mergeGroupsAux_error_of_dup (pre : List (List Record)) (mid post : List (List Record))
    (f1 f2 : List Record) (r1 r2 : Record)
    (hr1 : r1 ∈ f1) (hr2 : r2 ∈ f2) (hne : exampleId r1 ≠ .vnone)
    (heq : exampleId r1 = exampleId r2) :
    ∀ (seen : List PyVal) (acc : List Record),
      ∃ e, mergeGroupsAux (pre ++ f1 :: (mid ++ f2 :: post)) seen acc = .error e := by
  induction pre with
  | nil =>
    intro seen acc
    rw [List.nil_append, mergeGroupsAux]
    cases hm : mergeRecordsAux f1 seen acc with
    | error e => exact ⟨e, rfl⟩
    | ok p =>
      obtain ⟨s', a'⟩ := p
      obtain ⟨-, hcov⟩ := mergeRecordsAux_ok_spec f1 seen acc s' a' hm
      have hne2 : exampleId r2 ≠ .vnone := heq ▸ hne
      exact mergeGroupsAux_error_of_seen mid f2 post r2 hr2 hne2 s' a'
        (heq ▸ hcov r1 hr1 hne)
  | cons p0 pre ih =>
    intro seen acc
    rw [List.cons_append, mergeGroupsAux]
    cases hm : mergeRecordsAux p0 seen acc with
    | error e => exact ⟨e, rfl⟩
    | ok p =>
      obtain ⟨s', a'⟩ := p
      exact ih s' a'

/-- The seen-set / output invariant of merge_per_config.py's loop: the
non-null identifiers of the accumulated output are distinct, and
`seen_ids` is exactly their set. -/
def MergeInv (seen : List PyVal) (acc : List Record) : Prop :=
  (nonNullIds acc).Nodup ∧ ∀ v, v ∈ seen ↔ v ∈ nonNullIds acc

theorem nonNullIds_append_one (acc : List Record) (ex : Record) :
    nonNullIds (acc ++ [ex])
      = nonNullIds acc ++ (if exampleId ex = .vnone then [] else [exampleId ex]) := by
  rw [nonNullIds, List.filterMap_append]
  congr 1
  by_cases h : exampleId ex = .vnone
  · simp [nonNullIds, h]
  · simp [nonNullIds, h]

theorem mergeRecordsAux_inv (file : List Record) :
    ∀ (seen : List PyVal) (acc : List Record) (seen' : List PyVal) (acc' : List Record),
      mergeRecordsAux file seen acc = .ok (seen', acc') →
      MergeInv seen acc → MergeInv seen' acc' := by
  induction file with
  | nil =>
    intro seen acc s' a' h hinv
    rw [mergeRecordsAux] at h
    cases h
    exact hinv
  | cons ex rest ih =>
    intro seen acc s' a' h hinv
    obtain ⟨hnd, hiff⟩ := hinv
    rw [mergeRecordsAux] at h
    by_cases hdup : exampleId ex ≠ .vnone ∧ exampleId ex ∈ seen
    · rw [if_pos hdup] at h; cases h
    · rw [if_neg hdup] at h
      refine ih _ _ _ _ h ?_
      by_cases hne : exampleId ex = .vnone
      · rw [if_neg (by simpa using hne)]
        constructor
        · rw [nonNullIds_append_one, if_pos hne]
          simpa using hnd
        · intro v
          rw [nonNullIds_append_one, if_pos hne]
          simpa using hiff v
      · rw [if_pos (by simpa using hne)]
        have hnotseen : exampleId ex ∉ seen := fun hs => hdup ⟨hne, hs⟩
        constructor
        · rw [nonNullIds_append_one, if_neg hne]
          refine List.Nodup.append hnd (by simp) ?_
          intro a ha hb
          rw [List.mem_singleton] at hb
          subst hb
          exact hnotseen ((hiff _).2 ha)
        · intro v
          rw [nonNullIds_append_one, if_neg hne, List.mem_cons, List.mem_append,
            List.mem_singleton, hiff v]
          tauto

theorem mergeGroupsAux_inv (files : List (List Record)) :
    ∀ (seen : List PyVal) (acc : List Record) (seen' : List PyVal) (acc' : List Record),
      mergeGroupsAux files seen acc = .ok (seen', acc') →
      MergeInv seen acc → MergeInv seen' acc' := by
  induction files with
  | nil =>
    intro seen acc s' a' h hinv
    rw [mergeGroupsAux] at h
    cases h
    exact hinv
  | cons f rest ih =>
    intro seen acc s' a' h hinv
    rw [mergeGroupsAux] at h
    cases hm : mergeRecordsAux f seen acc with
    | error e => rw [hm] at h; cases h
    | ok p =>
      obtain ⟨s0, a0⟩ := p
      rw [hm] at h
      exact ih s0 a0 s' a' h (mergeRecordsAux_inv f seen acc s0 a0 hm hinv)

/-- C6: duplicate identifiers are a hard error.  (a) `load_as_dict` raises
on a file containing the same explicit example_id twice; (b) merging group
files raises whenever the same (non-null) example_id occurs in two
different groups' records; (c) a successful merge contains each (non-null)
identifier at most once. -/
theorem duplicate_ids_hard_error :
    (∀ (pre mid post : List Record) (r1 r2 : Record),
        dmem r1.fields "example_id" = true → dmem r2.fields "example_id" = true →
        exampleId r1 = exampleId r2 →
        ∃ e, load_as_dict (pre ++ r1 :: mid ++ r2 :: post) = .error e) ∧
    (∀ (pre mid post : List (List Record)) (f1 f2 : List Record) (r1 r2 : Record),
        r1 ∈ f1 → r2 ∈ f2 → exampleId r1 ≠ .vnone → exampleId r1 = exampleId r2 →
        ∃ e, mergeGroups (pre ++ f1 :: (mid ++ f2 :: post)) = .error e) ∧
    (∀ (files : List (List Record)) (out : List Record),
        mergeGroups files = .ok out → (nonNullIds out).Nodup) := by
  refine ⟨?_, ?_, ?_⟩
  · intro pre mid post r1 r2 h1 h2 heq
    apply loadAsDictAux_error_of_dup
    intro hnd
    rw [show pre ++ r1 :: mid ++ r2 :: post = pre ++ ((r1 :: mid) ++ r2 :: post) by simp,
      fileIds_append, fileIds_append] at hnd
    have hnd2 := hnd.of_append_right
    rw [fileIds] at hnd2
    have hnd3 := (List.nodup_cons.1 hnd2).1
    rw [if_pos h1] at hnd3
    apply hnd3
    apply List.mem_append_right
    rw [fileIds, if_pos h2, ← heq]
    exact List.mem_cons_self _ _
  · intro pre mid post f1 f2 r1 r2 hr1 hr2 hne heq
    obtain ⟨e, he⟩ := mergeGroupsAux_error_of_dup pre mid post f1 f2 r1 r2 hr1 hr2 hne heq [] []
    exact ⟨e, by rw [mergeGroups, he]⟩
  · intro files out h
    rw [mergeGroups] at h
    cases hm : mergeGroupsAux files [] [] with
    | error e => rw [hm] at h; cases h
    | ok p =>
      obtain ⟨s, a⟩ := p
      rw [hm] at h
      injection h with h2
      subst h2
      exact (mergeGroupsAux_inv files [] [] s a hm
        ⟨by simp [nonNullIds], by simp [nonNullIds]⟩).1

/-- Witness for C6: two records sharing example_id 1 in one file (part a)
and across two group files (part b); a successful two-group merge with
distinct ids 1 and 2 (part c). -/
theorem duplicate_ids_hard_error_witness :
    (∃ e, load_as_dict [Record.mk [("example_id", .vint 1)] [],
        Record.mk [("example_id", .vint 1)] []] = .error e) ∧
    (∃ e, mergeGroups [[Record.mk [("example_id", .vint 1)] []],
        [Record.mk [("example_id", .vint 1)] []]] = .error e) ∧
    (nonNullIds [Record.mk [("example_id", .vint 1)] [],
        Record.mk [("example_id", .vint 2)] []]).Nodup := by
  refine ⟨?_, ?_, ?_⟩
  · exact duplicate_ids_hard_error.1 [] [] []
      (Record.mk [("example_id", .vint 1)] []) (Record.mk [("example_id", .vint 1)] [])
      (by decide) (by decide) (by decide)
  · exact duplicate_ids_hard_error.2.1 [] [] []
      [Record.mk [("example_id", .vint 1)] []] [Record.mk [("example_id", .vint 1)] []]
      (Record.mk [("example_id", .vint 1)] []) (Record.mk [("example_id", .vint 1)] [])
      (by decide) (by decide) (by decide) (by decide)
  · exact duplicate_ids_hard_error.2.2
      [[Record.mk [("example_id", .vint 1)] []], [Record.mk [("example_id", .vint 2)] []]]
      [Record.mk [("example_id", .vint 1)] [], Record.mk [("example_id", .vint 2)] []]
      (by rfl)

/-- The structural errors validate_structures.py can report, modelled
structurally (the source renders them as strings; the `missing`/`extra`
constructors carry the offending id sets, which the source sorts only for
display). -/
inductive VErr where
  | missingExamples (ids : Finset PyVal)
  | extraExamples (ids : Finset PyVal)
  | numMessages (exId : PyVal) (o t : Nat)
  | keysDiffer (exId : PyVal) (msgIdx : Nat)
  | roleMismatch (exId : PyVal) (msgIdx : Nat)
  | fieldChanged (exId : PyVal) (msgIdx : Nat) (f : String)

/-- Per-message-pair checks of `compare_message_structures`: key sets,
role, and the tracked fields `name`, `tool_calls`, `tools`, in source
order. -/
def compareMsgPair (o t : Msg) (exId : PyVal) (i : Nat) : List VErr :=
  (if dkeys o.fields ≠ dkeys t.fields then [VErr.keysDiffer exId i] else [])
  ++ (if dget o.fields "role" ≠ dget t.fields "role" then [VErr.roleMismatch exId i] else [])
  ++ ((["name", "tool_calls", "tools"].filter
        (fun f => dget o.fields f ≠ dget t.fields f)).map (VErr.fieldChanged exId i))

/-- The indexed loop over the overlapping prefix of the two conversations
(`for i in range(min(len(orig), len(transf)))`). -/
def compareMsgsFrom : List Msg → List Msg → PyVal → Nat → List VErr
  | o :: os, t :: ts, exId, i => compareMsgPair o t exId i ++ compareMsgsFrom os ts exId (i + 1)
  | _, _, _, _ => []

/-- `compare_message_structures` from validate_structures.py.  The
"message is not an object" branch is unreachable in this typed model. -/
def compare_message_structures (origMsgs transfMsgs : List Msg) (exId : PyVal) : List VErr :=
  (if origMsgs.length ≠ transfMsgs.length
    then [VErr.numMessages exId origMsgs.length transfMsgs.length] else [])
  ++ compareMsgsFrom origMsgs transfMsgs exId 0

/-- `validate_structures` from validate_structures.py, returning
`(ok, errors)`.  The per-example loop runs here in original insertion
order rather than the source's sorted-id order; the multiset of reported
errors, and in particular whether any error is reported, is unaffected.
In non-strict mode the extra-ids message is only a printed warning, as in
the source.  The "'conversations' is not a list" branch is unreachable in
this typed model. -/
def validate_structures (original transformed : List Record) (strictIds : Bool) :
    Except String (Bool × List VErr) :=
  match load_as_dict original with
  | .error e => .error e
  | .ok origRecords =>
    match load_as_dict transformed with
    | .error e => .error e
    | .ok transfRecords =>
      let origIds := (origRecords.map Prod.fst).toFinset
      let transfIds := (transfRecords.map Prod.fst).toFinset
      let missing := origIds \ transfIds
      let extra := transfIds \ origIds
      let errors : List VErr :=
        (if missing ≠ ∅ then [VErr.missingExamples missing] else [])
        ++ (if strictIds ∧ extra ≠ ∅ then [VErr.extraExamples extra] else [])
        ++ (origRecords.map (fun p =>
              if p.1 ∈ transfIds then
                match idLookup transfRecords p.1 with
                | none => []
                | some t => compare_message_structures p.2.conversations t.conversations p.1
              else [])).flatten
      .ok (errors.isEmpty, errors)

theorem idLookup_mem (d : IdDict) (k : PyVal) (r : Record)
    (h : idLookup d k = some r) : (k, r) ∈ d := by
  induction d with
  | nil => simp [idLookup] at h
  | cons hd tl ih =>
    obtain ⟨k0, r0⟩ := hd
    rw [idLookup] at h
    by_cases hk : k0 = k
    · rw [if_pos hk] at h
      injection h with h2
      subst hk; subst h2
      exact List.mem_cons_self _ _
    · rw [if_neg hk] at h
      exact List.mem_cons_of_mem _ (ih h)

theorem idLookup_isSome_of_mem_keys (d : IdDict) (k : PyVal)
    (h : k ∈ d.map Prod.fst) : ∃ r, idLookup d k = some r := by
  induction d with
  | nil => simp at h
  | cons hd tl ih =>
    obtain ⟨k0, r0⟩ := hd
    by_cases hk : k0 = k
    · exact ⟨r0, by rw [idLookup, if_pos hk]⟩
    · rcases (by simpa using h : k = k0 ∨ k ∈ tl.map Prod.fst) with h1 | h1
      · exact absurd h1.symm hk
      · obtain ⟨r, hr⟩ := ih h1
        exact ⟨r, by rw [idLookup, if_neg hk, hr]⟩

/-- The structural agreement of one matched message pair that makes the
validator's per-pair check silent. -/
def PairOk (om tm : Msg) : Prop :=
  dkeys om.fields = dkeys tm.fields ∧
  dget om.fields "role" = dget tm.fields "role" ∧
  dget om.fields "name" = dget tm.fields "name" ∧
  dget om.fields "tool_calls" = dget tm.fields "tool_calls" ∧
  dget om.fields "tools" = dget tm.fields "tools"

theorem compareMsgPair_eq_nil (o t : Msg) (exId : PyVal) (i : Nat)
    (h : PairOk o t) : compareMsgPair o t exId i = [] := by
  obtain ⟨h1, h2, h3, h4, h5⟩ := h
  rw [compareMsgPair]
  simp [h1, h2, h3, h4, h5]

theorem compareMsgsFrom_eq_nil (os : List Msg) :
    ∀ (ts : List Msg) (exId : PyVal) (i : Nat),
      (∀ j om tm, os.get? j = some om → ts.get? j = some tm → PairOk om tm) →
      compareMsgsFrom os ts exId i = [] := by
  induction os with
  | nil => intro ts exId i h; cases ts <;> rfl
  | cons o os ih =>
    intro ts exId i h
    cases ts with
    | nil => rfl
    | cons t ts =>
      rw [compareMsgsFrom, compareMsgPair_eq_nil o t exId i (h 0 o t rfl rfl),
        List.nil_append]
      exact ih ts exId (i + 1) (fun j om tm h1 h2 => h (j + 1) om tm h1 h2)

theorem flatten_map_eq_nil {α β : Type} (l : List α) (f : α → List β)
    (h : ∀ x ∈ l, f x = []) : (l.map f).flatten = [] := by
  induction l with
  | nil => rfl
  | cons x xs ih =>
    rw [List.map_cons, List.flatten_cons, h x (List.mem_cons_self _ _), List.nil_append]
    exact ih (fun y hy => h y (List.mem_cons_of_mem _ hy))

/-- C3: validator round-trip — when the two loaded record dicts have the
same id set and every matched pair of conversations has equal length with
per-position equal key sets, roles, and name/tool_calls/tools fields,
`validate_structures` reports ok with zero errors, regardless of content
differences. -/
theorem validator_round_trip (original transformed : List Record)
    (od td : IdDict) (strictIds : Bool)
    (ho : load_as_dict original = .ok od)
    (ht : load_as_dict transformed = .ok td)
    (hids : (od.map Prod.fst).toFinset = (td.map Prod.fst).toFinset)
    (hstruct : ∀ k o t, (k, o) ∈ od → (k, t) ∈ td →
      o.conversations.length = t.conversations.length ∧
      ∀ i om tm, o.conversations.get? i = some om → t.conversations.get? i = some tm →
        PairOk om tm) :
    validate_structures original transformed strictIds = .ok (true, []) := by
  rw [validate_structures, ho, ht]
  have hmiss : (od.map Prod.fst).toFinset \ (td.map Prod.fst).toFinset = ∅ := by
    rw [hids, Finset.sdiff_self]
  have hextra : (td.map Prod.fst).toFinset \ (od.map Prod.fst).toFinset = ∅ := by
    rw [hids, Finset.sdiff_self]
  have hflat : (od.map (fun p =>
      if p.1 ∈ (td.map Prod.fst).toFinset then
        match idLookup td p.1 with
        | none => []
        | some t => compare_message_structures p.2.conversations t.conversations p.1
      else [])).flatten = ([] : List VErr) := by
    apply flatten_map_eq_nil
    intro p hp
    have hpk : p.1 ∈ (td.map Prod.fst).toFinset := by
      rw [← hids, List.mem_toFinset]
      exact List.mem_map.2 ⟨p, hp, rfl⟩
    rw [if_pos hpk]
    obtain ⟨t, htl⟩ := idLookup_isSome_of_mem_keys td p.1 (List.mem_toFinset.1 hpk)
    rw [htl]
    obtain ⟨hlen, hpair⟩ := hstruct p.1 p.2 t (by simpa using hp) (idLookup_mem td p.1 t htl)
    show compare_message_structures p.2.conversations t.conversations p.1 = []
    rw [compare_message_structures, if_neg (by simpa using hlen),
      compareMsgsFrom_eq_nil _ _ _ _ hpair, List.append_nil]
  simp only [hmiss, hextra, hflat]
  simp

/-- The concrete original file of the C3 witness. -/
def rtOrig : List Record :=
  [Record.mk [("example_id", .vint 1)]
    [Msg.mk [("role", .vstr "user"), ("content", .vstr "a")]]]

/-- The concrete transformed file of the C3 witness: same structure,
different `content`. -/
def rtTransf : List Record :=
  [Record.mk [("example_id", .vint 1)]
    [Msg.mk [("role", .vstr "user"), ("content", .vstr "b")]]]

/-- Witness for C3: one record on each side, same structure, different
`content`. -/
theorem validator_round_trip_witness :
    validate_structures rtOrig rtTransf true = .ok (true, []) := by
  have hstruct : ∀ k o t,
      (k, o) ∈ ([(.vint 1, Record.mk [("example_id", .vint 1)]
        [Msg.mk [("role", .vstr "user"), ("content", .vstr "a")]])] : IdDict) →
      (k, t) ∈ ([(.vint 1, Record.mk [("example_id", .vint 1)]
        [Msg.mk [("role", .vstr "user"), ("content", .vstr "b")]])] : IdDict) →
      o.conversations.length = t.conversations.length ∧
      ∀ i om tm, o.conversations.get? i = some om → t.conversations.get? i = some tm →
        PairOk om tm := by
    intro k o t hk ht
    rw [List.mem_singleton, Prod.mk.injEq] at hk ht
    obtain ⟨hk1, hk2⟩ := hk
    obtain ⟨ht1, ht2⟩ := ht
    subst hk2
    subst ht2
    refine ⟨by decide, ?_⟩
    intro i om tm hom htm
    cases i with
    | zero =>
      injection hom with hom2
      injection htm with htm2
      subst hom2
      subst htm2
      exact ⟨by decide, by decide, by decide, by decide, by decide⟩
    | succ n =>
      cases hom
  exact validator_round_trip rtOrig rtTransf
    [(.vint 1, Record.mk [("example_id", .vint 1)]
      [Msg.mk [("role", .vstr "user"), ("content", .vstr "a")]])]
    [(.vint 1, Record.mk [("example_id", .vint 1)]
      [Msg.mk [("role", .vstr "user"), ("content", .vstr "b")]])]
    true rfl rfl (by decide) hstruct

/-- `try_parse_json` from repair_tool_messages.py: non-string values are
treated as already structured and parse-ok; whether a string parses as
JSON is abstracted by the oracle `jsonOk` (the success of Python's
`json.loads`, on which the code only ever branches). -/
def try_parse_json (jsonOk : String → Bool) : PyVal → Bool
  | .vstr s => jsonOk s
  | _ => true

/-- The zip loop of `repair_record` from repair_tool_messages.py, acting
on the (deep-copied) cleaned messages.  An unrepairable tool pair aborts:
the messages processed so far keep their repairs and the remaining ones
stay unchanged, as the source's early `return` leaves them.  The flag is
`false` exactly when the loop aborted.  `get_messages` is the
`conversations` field in this typed model. -/
def repairConvs (jsonOk : String → Bool) : List Msg → List Msg → List Msg × Bool
  | mr :: rs, mc :: cs =>
    if dget mr.fields "role" = .vstr "tool" ∧ dget mc.fields "role" = .vstr "tool" then
      if try_parse_json jsonOk (dget mc.fields "content") then
        ((mc :: (repairConvs jsonOk rs cs).1), (repairConvs jsonOk rs cs).2)
      else if try_parse_json jsonOk (dget mr.fields "content") then
        ((Msg.mk (dset (dset mc.fields "content" (dget mr.fields "content"))
            "name" (dget mr.fields "name")) :: (repairConvs jsonOk rs cs).1),
          (repairConvs jsonOk rs cs).2)
      else (mc :: cs, false)
    else
      ((mc :: (repairConvs jsonOk rs cs).1), (repairConvs jsonOk rs cs).2)
  | _, cs => (cs, true)

/-- The final sanity check of `repair_record` (and the keep-condition of
the no-raw-reference branch of `main`): every tool-role message has
parseable content. -/
def toolMsgsOk (jsonOk : String → Bool) (msgs : List Msg) : Bool :=
  msgs.all (fun m =>
    if dget m.fields "role" = .vstr "tool" then
      try_parse_json jsonOk (dget m.fields "content")
    else true)

/-- `repair_record` from repair_tool_messages.py.  The deep copy of the
cleaned record is the identity in this pure model (neither input is ever
mutated); mutating copied messages in place becomes rebuilding the
conversation list. -/
def repair_record (jsonOk : String → Bool) (raw_rec cleaned_rec : Record) :
    Record × Bool :=
  if raw_rec.conversations.length ≠ cleaned_rec.conversations.length then
    (cleaned_rec, false)
  else if (repairConvs jsonOk raw_rec.conversations cleaned_rec.conversations).2 = false then
    (Record.mk cleaned_rec.fields
      (repairConvs jsonOk raw_rec.conversations cleaned_rec.conversations).1, false)
  else if toolMsgsOk jsonOk
      (repairConvs jsonOk raw_rec.conversations cleaned_rec.conversations).1 then
    (Record.mk cleaned_rec.fields
      (repairConvs jsonOk raw_rec.conversations cleaned_rec.conversations).1, true)
  else
    (Record.mk cleaned_rec.fields
      (repairConvs jsonOk raw_rec.conversations cleaned_rec.conversations).1, false)

/-- The per-record loop of repair_tool_messages.py's `main` over the
cleaned records, returning
`(repaired_records, skipped_no_raw, skipped_unrepairable)`. -/
def processCleaned (jsonOk : String → Bool) (rawIndex : IdDict) :
    List Record → List Record × List PyVal × List PyVal
  | [] => ([], [], [])
  | cleaned_rec :: rest =>
    if exampleId cleaned_rec = .vnone then
      ((processCleaned jsonOk rawIndex rest).1,
        (processCleaned jsonOk rawIndex rest).2.1,
        exampleId cleaned_rec :: (processCleaned jsonOk rawIndex rest).2.2)
    else
      match idLookup rawIndex (exampleId cleaned_rec) with
      | none =>
        if toolMsgsOk jsonOk cleaned_rec.conversations then
          (cleaned_rec :: (processCleaned jsonOk rawIndex rest).1,
            (processCleaned jsonOk rawIndex rest).2.1,
            (processCleaned jsonOk rawIndex rest).2.2)
        else
          ((processCleaned jsonOk rawIndex rest).1,
            exampleId cleaned_rec :: (processCleaned jsonOk rawIndex rest).2.1,
            (processCleaned jsonOk rawIndex rest).2.2)
      | some raw_rec =>
        if (repair_record jsonOk raw_rec cleaned_rec).2 then
          ((repair_record jsonOk raw_rec cleaned_rec).1
              :: (processCleaned jsonOk rawIndex rest).1,
            (processCleaned jsonOk rawIndex rest).2.1,
            (processCleaned jsonOk rawIndex rest).2.2)
        else
          ((processCleaned jsonOk rawIndex rest).1,
            (processCleaned jsonOk rawIndex rest).2.1,
            exampleId cleaned_rec :: (processCleaned jsonOk rawIndex rest).2.2)

/-- The substituted message of a repair: raw content (and name) copied
into the cleaned tool message. -/
def substMsg (mr mc : Msg) : Msg :=
  Msg.mk (dset (dset mc.fields "content" (dget mr.fields "content"))
    "name" (dget mr.fields "name"))

theorem repairConvs_cases (jsonOk : String → Bool) (rs : List Msg) :
    ∀ (cs : List Msg) (i : Nat) (mr mc : Msg),
      rs.get? i = some mr → cs.get? i = some mc →
      dget mr.fields "role" = .vstr "tool" → dget mc.fields "role" = .vstr "tool" →
      ((try_parse_json jsonOk (dget mc.fields "content") = true →
          (repairConvs jsonOk rs cs).1.get? i = some mc) ∧
        (try_parse_json jsonOk (dget mc.fields "content") = false →
          try_parse_json jsonOk (dget mr.fields "content") = true →
          (repairConvs jsonOk rs cs).2 = true →
          (repairConvs jsonOk rs cs).1.get? i = some (substMsg mr mc)) ∧
        (try_parse_json jsonOk (dget mc.fields "content") = false →
          try_parse_json jsonOk (dget mr.fields "content") = false →
          (repairConvs jsonOk rs cs).2 = false)) := by
  induction rs with
  | nil => intro cs i mr mc h1; simp at h1
  | cons mr0 rs ih =>
    intro cs i mr mc h1 h2 hrt hct
    cases cs with
    | nil => simp at h2
    | cons mc0 cs =>
      cases i with
      | zero =>
        injection h1 with h1
        injection h2 with h2
        subst h1
        subst h2
        rw [repairConvs, if_pos ⟨hrt, hct⟩]
        by_cases hpc : try_parse_json jsonOk (dget mc0.fields "content") = true
        · rw [if_pos hpc]
          exact ⟨fun _ => rfl,
            fun hf => absurd hpc (by simp [hf]),
            fun hf => absurd hpc (by simp [hf])⟩
        · rw [if_neg hpc]
          by_cases hpr : try_parse_json jsonOk (dget mr0.fields "content") = true
          · rw [if_pos hpr]
            exact ⟨fun ht => absurd ht hpc,
              fun _ _ _ => rfl,
              fun _ hf => absurd hpr (by simp [hf])⟩
          · rw [if_neg hpr]
            exact ⟨fun ht => absurd ht hpc,
              fun _ hf => absurd hf (by simpa using hpr),
              fun _ _ => rfl⟩
      | succ n =>
        have h1' : rs.get? n = some mr := h1
        have h2' : cs.get? n = some mc := h2
        obtain ⟨ha, hb, hc⟩ := ih cs n mr mc h1' h2' hrt hct
        rw [repairConvs]
        by_cases hg : dget mr0.fields "role" = .vstr "tool"
            ∧ dget mc0.fields "role" = .vstr "tool"
        · rw [if_pos hg]
          by_cases hpc0 : try_parse_json jsonOk (dget mc0.fields "content") = true
          · rw [if_pos hpc0]
            exact ⟨fun ht => ha ht, fun hf hr hflag => hb hf hr hflag, fun hf hr => hc hf hr⟩
          · rw [if_neg hpc0]
            by_cases hpr0 : try_parse_json jsonOk (dget mr0.fields "content") = true
            · rw [if_pos hpr0]
              exact ⟨fun ht => ha ht, fun hf hr hflag => hb hf hr hflag, fun hf hr => hc hf hr⟩
            · rw [if_neg hpr0]
              refine ⟨fun _ => h2', fun _ _ hflag => absurd hflag (by simp), fun _ _ => rfl⟩
        · rw [if_neg hg]
          exact ⟨fun ht => ha ht, fun hf hr hflag => hb hf hr hflag, fun hf hr => hc hf hr⟩

theorem repairConvs_length (jsonOk : String → Bool) (rs : List Msg) :
    ∀ cs : List Msg, (repairConvs jsonOk rs cs).1.length = cs.length := by
  induction rs with
  | nil => intro cs; cases cs <;> rfl
  | cons mr0 rs ih =>
    intro cs
    cases cs with
    | nil => rfl
    | cons mc0 cs =>
      rw [repairConvs]
      by_cases hg : dget mr0.fields "role" = .vstr "tool"
          ∧ dget mc0.fields "role" = .vstr "tool"
      · rw [if_pos hg]
        by_cases hpc0 : try_parse_json jsonOk (dget mc0.fields "content") = true
        · rw [if_pos hpc0]
          simp [ih cs]
        · rw [if_neg hpc0]
          by_cases hpr0 : try_parse_json jsonOk (dget mr0.fields "content") = true
          · rw [if_pos hpr0]
            simp [ih cs]
          · rw [if_neg hpr0]
      · rw [if_neg hg]
        simp [ih cs]

theorem repairConvs_keys (jsonOk : String → Bool) (rs : List Msg) :
    ∀ (cs : List Msg) (i : Nat) (m' : Msg),
      (repairConvs jsonOk rs cs).1.get? i = some m' →
      ∃ mc, cs.get? i = some mc ∧
        ∀ k, k ≠ "content" → k ≠ "name" → dget m'.fields k = dget mc.fields k := by
  induction rs with
  | nil =>
    intro cs i m' h
    cases cs with
    | nil => exact ⟨m', h, fun k _ _ => rfl⟩
    | cons mc0 cs => exact ⟨m', h, fun k _ _ => rfl⟩
  | cons mr0 rs ih =>
    intro cs i m' h
    cases cs with
    | nil => exact ⟨m', h, fun k _ _ => rfl⟩
    | cons mc0 cs =>
      rw [repairConvs] at h
      by_cases hg : dget mr0.fields "role" = .vstr "tool"
          ∧ dget mc0.fields "role" = .vstr "tool"
      · rw [if_pos hg] at h
        by_cases hpc0 : try_parse_json jsonOk (dget mc0.fields "content") = true
        · rw [if_pos hpc0] at h
          cases i with
          | zero =>
            injection h with h
            exact ⟨mc0, rfl, fun k _ _ => by rw [h]⟩
          | succ n =>
            obtain ⟨mc, hmc, hk⟩ := ih cs n m' h
            exact ⟨mc, hmc, hk⟩
        · rw [if_neg hpc0] at h
          by_cases hpr0 : try_parse_json jsonOk (dget mr0.fields "content") = true
          · rw [if_pos hpr0] at h
            cases i with
            | zero =>
              injection h with h
              refine ⟨mc0, rfl, fun k hk1 hk2 => ?_⟩
              rw [← h]
              show dget (dset (dset mc0.fields "content" (dget mr0.fields "content"))
                "name" (dget mr0.fields "name")) k = dget mc0.fields k
              rw [dget_dset_ne _ "name" k _ (fun hh => hk2 hh.symm),
                dget_dset_ne _ "content" k _ (fun hh => hk1 hh.symm)]
            | succ n =>
              obtain ⟨mc, hmc, hk⟩ := ih cs n m' h
              exact ⟨mc, hmc, hk⟩
          · rw [if_neg hpr0] at h
            cases i with
            | zero =>
              injection h with h
              exact ⟨mc0, rfl, fun k _ _ => by rw [h]⟩
            | succ n => exact ⟨m', h, fun k _ _ => rfl⟩
      · rw [if_neg hg] at h
        cases i with
        | zero =>
          injection h with h
          exact ⟨mc0, rfl, fun k _ _ => by rw [h]⟩
        | succ n =>
          obtain ⟨mc, hmc, hk⟩ := ih cs n m' h
          exact ⟨mc, hmc, hk⟩

theorem repairConvs_nontool (jsonOk : String → Bool) (rs : List Msg) :
    ∀ (cs : List Msg) (i : Nat) (mr mc : Msg),
      rs.get? i = some mr → cs.get? i = some mc →
      ¬(dget mr.fields "role" = .vstr "tool" ∧ dget mc.fields "role" = .vstr "tool") →
      (repairConvs jsonOk rs cs).1.get? i = some mc := by
  induction rs with
  | nil => intro cs i mr mc h1; simp at h1
  | cons mr0 rs ih =>
    intro cs i mr mc h1 h2 hg
    cases cs with
    | nil => simp at h2
    | cons mc0 cs =>
      cases i with
      | zero =>
        injection h1 with h1
        injection h2 with h2
        subst h1
        subst h2
        rw [repairConvs, if_neg hg]
        rfl
      | succ n =>
        have h1' : rs.get? n = some mr := h1
        have h2' : cs.get? n = some mc := h2
        rw [repairConvs]
        by_cases hg0 : dget mr0.fields "role" = .vstr "tool"
            ∧ dget mc0.fields "role" = .vstr "tool"
        · rw [if_pos hg0]
          by_cases hpc0 : try_parse_json jsonOk (dget mc0.fields "content") = true
          · rw [if_pos hpc0]
            exact ih cs n mr mc h1' h2' hg
          · rw [if_neg hpc0]
            by_cases hpr0 : try_parse_json jsonOk (dget mr0.fields "content") = true
            · rw [if_pos hpr0]
              exact ih cs n mr mc h1' h2' hg
            · rw [if_neg hpr0]
              exact h2'
        · rw [if_neg hg0]
          exact ih cs n mr mc h1' h2' hg

theorem repair_record_fst (jsonOk : String → Bool) (raw_rec cleaned_rec : Record)
    (hlen : raw_rec.conversations.length = cleaned_rec.conversations.length) :
    (repair_record jsonOk raw_rec cleaned_rec).1
      = Record.mk cleaned_rec.fields
          (repairConvs jsonOk raw_rec.conversations cleaned_rec.conversations).1 := by
  rw [repair_record, if_neg (by simp [hlen])]
  by_cases h2 : (repairConvs jsonOk raw_rec.conversations cleaned_rec.conversations).2 = false
  · rw [if_pos h2]
  · rw [if_neg h2]
    by_cases h3 : toolMsgsOk jsonOk
        (repairConvs jsonOk raw_rec.conversations cleaned_rec.conversations).1 = true
    · rw [if_pos h3]
    · rw [if_neg h3]

theorem repair_record_flag_of_abort (jsonOk : String → Bool) (raw_rec cleaned_rec : Record)
    (hlen : raw_rec.conversations.length = cleaned_rec.conversations.length)
    (h : (repairConvs jsonOk raw_rec.conversations cleaned_rec.conversations).2 = false) :
    (repair_record jsonOk raw_rec cleaned_rec).2 = false := by
  rw [repair_record, if_neg (by simp [hlen]), if_pos h]

/-- C7: tool-message repair.  With equal conversation lengths, at each
position where both records carry a tool-role message: (a) parseable
cleaned content keeps the cleaned message unchanged in the result; (b)
unparseable cleaned but parseable raw content substitutes the raw content
and name (stated for runs in which the zip loop completes, i.e. no other
pair is unrepairable — exactly the runs whose record can reach the
output); (c) if both are unparseable the record is marked unrepairable,
and such a record contributes nothing to `main`'s repaired output.  Every
function involved is total: no exception is modelled or raised. -/
theorem tool_message_repair (jsonOk : String → Bool) (raw_rec cleaned_rec : Record)
    (hlen : raw_rec.conversations.length = cleaned_rec.conversations.length) :
    (∀ i mr mc, raw_rec.conversations.get? i = some mr →
      cleaned_rec.conversations.get? i = some mc →
      dget mr.fields "role" = .vstr "tool" → dget mc.fields "role" = .vstr "tool" →
      ((try_parse_json jsonOk (dget mc.fields "content") = true →
          (repair_record jsonOk raw_rec cleaned_rec).1.conversations.get? i = some mc) ∧
        (try_parse_json jsonOk (dget mc.fields "content") = false →
          try_parse_json jsonOk (dget mr.fields "content") = true →
          (repairConvs jsonOk raw_rec.conversations cleaned_rec.conversations).2 = true →
          (repair_record jsonOk raw_rec cleaned_rec).1.conversations.get? i
            = some (substMsg mr mc)) ∧
        (try_parse_json jsonOk (dget mc.fields "content") = false →
          try_parse_json jsonOk (dget mr.fields "content") = false →
          (repair_record jsonOk raw_rec cleaned_rec).2 = false))) ∧
    (∀ (rawIndex : IdDict) (rest : List Record), exampleId cleaned_rec ≠ .vnone →
      idLookup rawIndex (exampleId cleaned_rec) = some raw_rec →
      (repair_record jsonOk raw_rec cleaned_rec).2 = false →
      (processCleaned jsonOk rawIndex (cleaned_rec :: rest)).1
        = (processCleaned jsonOk rawIndex rest).1) := by
  constructor
  · intro i mr mc h1 h2 hrt hct
    obtain ⟨ha, hb, hc⟩ := repairConvs_cases jsonOk raw_rec.conversations
      cleaned_rec.conversations i mr mc h1 h2 hrt hct
    rw [repair_record_fst jsonOk raw_rec cleaned_rec hlen]
    exact ⟨fun ht => ha ht, fun hf hr hflag => hb hf hr hflag,
      fun hf hr => repair_record_flag_of_abort jsonOk raw_rec cleaned_rec hlen (hc hf hr)⟩
  · intro rawIndex rest hne hlook hflag
    rw [processCleaned, if_neg hne, hlook]
    simp [hflag]

/-- C10: frame property of `repair_record` — it is pure (neither input is
mutated; the source deep-copies the cleaned record, which is the identity
here), and the returned record differs from the cleaned input only in the
content and name fields of tool-role messages: the non-conversation fields
are unchanged, the conversation length is unchanged, every output message
agrees with the corresponding cleaned message on every key other than
"content" and "name" (in particular on "role"), and wherever raw and
cleaned are not both tool-role messages the cleaned message is returned
verbatim. -/
theorem repair_record_frame (jsonOk : String → Bool) (raw_rec cleaned_rec : Record) :
    (repair_record jsonOk raw_rec cleaned_rec).1.fields = cleaned_rec.fields ∧
    (repair_record jsonOk raw_rec cleaned_rec).1.conversations.length
      = cleaned_rec.conversations.length ∧
    (∀ i m', (repair_record jsonOk raw_rec cleaned_rec).1.conversations.get? i = some m' →
      ∃ mc, cleaned_rec.conversations.get? i = some mc ∧
        ∀ k, k ≠ "content" → k ≠ "name" → dget m'.fields k = dget mc.fields k) ∧
    (∀ i mr mc, raw_rec.conversations.get? i = some mr →
      cleaned_rec.conversations.get? i = some mc →
      ¬(dget mr.fields "role" = .vstr "tool" ∧ dget mc.fields "role" = .vstr "tool") →
      (repair_record jsonOk raw_rec cleaned_rec).1.conversations.get? i = some mc) := by
  by_cases hlen : raw_rec.conversations.length = cleaned_rec.conversations.length
  · rw [repair_record_fst jsonOk raw_rec cleaned_rec hlen]
    exact ⟨rfl, repairConvs_length jsonOk _ _,
      fun i m' h => repairConvs_keys jsonOk _ _ i m' h,
      fun i mr mc h1 h2 hg => repairConvs_nontool jsonOk _ _ i mr mc h1 h2 hg⟩
  · have hcl : (repair_record jsonOk raw_rec cleaned_rec).1 = cleaned_rec := by
      rw [repair_record, if_pos hlen]
    rw [hcl]
    exact ⟨rfl, rfl, fun i m' h => ⟨m', h, fun k _ _ => rfl⟩,
      fun i mr mc h1 h2 hg => h2⟩

/-- The raw tool message of the C7/C10 witnesses: content `"1"` is
JSON-parseable under the witness oracle. -/
def rawToolMsg : Msg :=
  Msg.mk [("role", .vstr "tool"), ("content", .vstr "1"), ("name", .vstr "calc")]

/-- The cleaned tool message of the C7/C10 witnesses: content `"bad"` is
not JSON-parseable under the witness oracle. -/
def cleanToolMsg : Msg :=
  Msg.mk [("role", .vstr "tool"), ("content", .vstr "bad"), ("name", .vstr "calc")]

/-- Raw record of the C7 witness. -/
def rawToolRec : Record := Record.mk [("example_id", .vint 1)] [rawToolMsg]

/-- Cleaned record of the C7 witness. -/
def cleanToolRec : Record := Record.mk [("example_id", .vint 1)] [cleanToolMsg]

/-- Witness for C7: the unparseable cleaned tool content is replaced by the
raw content and name (oracle: exactly `"1"` parses), and under an oracle
where nothing parses the record is excluded from the repaired output. -/
theorem tool_message_repair_witness :
    (repair_record (fun s => s == "1") rawToolRec cleanToolRec).1.conversations.get? 0
        = some (substMsg rawToolMsg cleanToolMsg) ∧
    (processCleaned (fun _ => false) [(.vint 1, rawToolRec)] [cleanToolRec]).1
        = (processCleaned (fun _ => false) [(.vint 1, rawToolRec)] []).1 := by
  constructor
  · exact ((tool_message_repair (fun s => s == "1") rawToolRec cleanToolRec (by decide)).1
      0 rawToolMsg cleanToolMsg rfl rfl (by decide) (by decide)).2.1
      (by decide) (by decide) (by decide)
  · exact (tool_message_repair (fun _ => false) rawToolRec cleanToolRec (by decide)).2
      [(.vint 1, rawToolRec)] [] (by decide) (by decide) (by decide)

/-- Raw record of the C10 witness: a user-role message. -/
def rawUserRec : Record :=
  Record.mk [("example_id", .vint 2)]
    [Msg.mk [("role", .vstr "user"), ("content", .vstr "q")]]

/-- Cleaned record of the C10 witness: a user-role message with changed
content. -/
def cleanUserRec : Record :=
  Record.mk [("example_id", .vint 2)]
    [Msg.mk [("role", .vstr "user"), ("content", .vstr "q2")]]

/-- Witness for C10: fields unchanged, and a non-tool message returned
verbatim. -/
theorem repair_record_frame_witness :
    (repair_record (fun _ => false) rawUserRec cleanUserRec).1.fields = cleanUserRec.fields ∧
    (repair_record (fun _ => false) rawUserRec cleanUserRec).1.conversations.get? 0
      = some (Msg.mk [("role", .vstr "user"), ("content", .vstr "q2")]) := by
  refine ⟨(repair_record_frame (fun _ => false) rawUserRec cleanUserRec).1, ?_⟩
  exact (repair_record_frame (fun _ => false) rawUserRec cleanUserRec).2.2.2 0
    (Msg.mk [("role", .vstr "user"), ("content", .vstr "q")])
    (Msg.mk [("role", .vstr "user"), ("content", .vstr "q2")])
    rfl rfl (by decide)

end Argunauts
